import Mathlib

/-!
Shallow embedding of the bloda archive engine (src/bloda-sys/src/lib.rs and
src/bloda-sys/src/compress_utils.rs, the most recent iteration, which the
specification fixes as normative).

Modelling conventions:
* Byte streams are `List Nat` (`Bytes`); machine integers `i64`/`u64` are
  `Int`/`Nat` (no overflow occurs in the modelled ranges except where noted).
* Paths are lists of components (`Path`); the Rust code stores them as
  forward-slash strings, and `strip_prefix root` is modelled by taking all
  paths relative to the root, the root itself being `[]`.
* The compression libraries (lzma, lz4_flex, zstd) are external collaborators:
  they enter as the six stream functions of a `CodecLib` parameter.  The
  embedded SQLite index store (diesel) is likewise external: serialization is
  an `IndexData → Bytes` parameter on the writer and a
  `Bytes → Except String IndexData` parameter on the reader.
* `Read::read` into a zero-initialised buffer is modelled by `readBytes`:
  it copies the available bytes and leaves the tail of the buffer zero,
  returning no error on a short read — exactly as the Rust code, which
  ignores the returned count.
* Rust panics (out-of-range slice or Vec indexing) are modelled as
  `Except.error` values so that the functions stay total.
* Errors are the `String` values the Rust code builds with `format!`; the
  formatted-in sub-messages of external libraries are whatever `String` the
  corresponding `CodecLib`/index-store parameter produces.
-/

namespace Bloda

abbrev Bytes := List Nat

abbrev Path := List String

/-- The three external compression libraries behind compress_utils.rs
(`lzma`, `lz4_flex::frame`, `zstd`), each as a pair of whole-stream
transforms.  `Except.error` models an underlying library failure. -/
structure CodecLib where
  lzmaC : Bytes → Except String Bytes
  lzmaD : Bytes → Except String Bytes
  lz4C : Bytes → Except String Bytes
  lz4D : Bytes → Except String Bytes
  zstdC : Bytes → Except String Bytes
  zstdD : Bytes → Except String Bytes

/-- compress_utils.rs, `compress_data`: dispatch on the codec label; any other
label is `Err("unknown compression type")`.  The Rust function returns the
`u64` count of `io::copy`, which for compression is the number of bytes drawn
from the input, so the model returns `(output bytes, input.length)`. -/
def compress_data (lib : CodecLib) (compression : String) (input : Bytes) :
    Except String (Bytes × Nat) :=
  match compression with
  | "LZMA" => (lib.lzmaC input).map (fun out => (out, input.length))
  | "LZ4" => (lib.lz4C input).map (fun out => (out, input.length))
  | "ZSTD" => (lib.zstdC input).map (fun out => (out, input.length))
  | _ => .error "unknown compression type"

/-- compress_utils.rs, `decompress_data`: for decompression `io::copy` counts
the bytes written to the output, so the model returns
`(output bytes, output.length)`. -/
def decompress_data (lib : CodecLib) (compression : String) (input : Bytes) :
    Except String (Bytes × Nat) :=
  match compression with
  | "LZMA" => (lib.lzmaD input).map (fun out => (out, out.length))
  | "LZ4" => (lib.lz4D input).map (fun out => (out, out.length))
  | "ZSTD" => (lib.zstdD input).map (fun out => (out, out.length))
  | _ => .error "unknown compression type"

/-- A row of the `files` table (lib.rs usage: name, block, offset, size,
all the integer columns being `i64`). -/
structure ArchiveFileEntry where
  name : Path
  block : Int
  offset : Int
  size : Int
deriving DecidableEq, Repr

/-- A row of the `blocks` table (id, size, offset, compression_type). -/
structure ArchiveBlockInfo where
  id : Int
  size : Int
  offset : Int
  compression_type : String
deriving DecidableEq, Repr

/-- The three tables of the embedded index store. -/
structure IndexData where
  files : List ArchiveFileEntry
  folder_leaves : List Path
  blocks : List ArchiveBlockInfo
deriving DecidableEq, Repr

/-- An input directory as the walk sees it: the regular files (relative path
and content) and the subdirectories (relative paths; the root `[]` is not
listed, `walkdir` adds it). -/
structure InputFS where
  files : List (Path × Bytes)
  subdirs : List Path
deriving DecidableEq, Repr

def DEFAULT_BLOCK_SIZE : Int := 64 * 1024 * 1024

def DEFAULT_MAX_MEM_EXTRACT_SIZE : Int := 16 * 1024 * 1024

/-- The directory entries `walkdir::WalkDir::new(inp_dir)` yields (the
`x.is_dir()` filter), relative to the root: the root itself first, then the
subdirectories. -/
def walkDirs (fs : InputFS) : List Path :=
  [] :: fs.subdirs

/-- `fs::read_dir(x).map(|mut y| y.next().is_none())`: a directory is a leaf
iff no entry of the tree is a direct child of it. -/
def isLeafDir (fs : InputFS) (d : Path) : Bool :=
  ((fs.subdirs ++ fs.files.map (fun f => f.1)).filter
    (fun e => !e.isEmpty && e.dropLast == d)).isEmpty

/-- Stable ascending sort by the size component, modelling
`files_w_sizes.sort_by_key(|x| x.1)` (Rust's stable sort). -/
def sortFilesBySize (files : List (Path × Int)) : List (Path × Int) :=
  files.insertionSort (fun a b => a.2 ≤ b.2)

/-- The `for (path, size) in files_w_sizes` loop of
`distribute_files_to_blocks`, with the accumulated closed blocks, the current
block and its running offset as explicit state. -/
def distributeGo (B : Int) :
    List (Path × Int) → List (List (Path × Int × Int)) →
    List (Path × Int × Int) → Int → List (List (Path × Int × Int))
  | [], acc, curr, _ =>
    if curr.length > 0 then acc ++ [curr] else acc
  | (path, size) :: rest, acc, curr, off =>
    if off + size > B ∧ curr.length > 0 then
      distributeGo B rest (acc ++ [curr]) [(path, 0, size)] size
    else
      distributeGo B rest acc (curr ++ [(path, off, size)]) (off + size)

/-- lib.rs `distribute_files_to_blocks`: walk the tree, size the regular
files, sort ascending by size, fill blocks greedily under the budget, and
collect the empty (leaf) directories. -/
def distribute_files_to_blocks (fs : InputFS) (max_multi_block_size : Int) :
    List (List (Path × Int × Int)) × List Path :=
  let files_w_sizes :=
    sortFilesBySize (fs.files.map (fun f => (f.1, (f.2.length : Int))))
  let folder_leaves := (walkDirs fs).filter (isLeafDir fs)
  (distributeGo max_multi_block_size files_w_sizes [] [] 0, folder_leaves)

/-- Content lookup for a path of the input tree (the model of
`fs::File::open(path)` + reading it). -/
def contentOf (fs : InputFS) (p : Path) : Bytes :=
  ((fs.files.find? (fun q => q.1 == p)).map (fun q => q.2)).getD []

/-- One `fr.read(&mut block_data[offset .. offset+size])` call: copy
`min size data.length` bytes of `data` into the buffer at `off`, leaving the
rest of the region as it was. -/
def writeRegion (buf : Bytes) (off sz : Nat) (data : Bytes) : Bytes :=
  let k := min sz data.length
  buf.take off ++ data.take k ++ buf.drop (off + k)

/-- The multi-file buffer of `compress_block`: a zero buffer of `total`
bytes, each file read into its `[offset, offset+size)` region. -/
def mkBlockBuffer (content : Path → Bytes) (block_files : List (Path × Int × Int))
    (total : Int) : Bytes :=
  block_files.foldl
    (fun buf e => writeRegion buf e.2.1.toNat e.2.2.toNat (content e.1))
    (List.replicate total.toNat 0)

/-- lib.rs `compress_block`.  Returns the bytes written to the staging file
and the `u64` the function returns — which for a single-file block is
`compress_data`'s return, the `io::copy` count, i.e. the UNCOMPRESSED length,
while for a multi-file block it is `compressed_block_data.len()`. -/
def compress_block (lib : CodecLib) (content : Path → Bytes)
    (block_files : List (Path × Int × Int)) (compression_type : String) :
    Except String (Bytes × Int) :=
  if block_files.length = 1 then
    match block_files.getLast? with
    | some (path, _, _) =>
      (compress_data lib compression_type (content path)).map
        (fun r => (r.1, (r.2 : Int)))
    | none => .error "should not occur"
  else
    let total_size := (block_files.map (fun e => e.2.2)).sum
    let block_data := mkBlockBuffer content block_files total_size
    (compress_data lib compression_type block_data).map
      (fun r => (r.1, (r.1.length : Int)))

/-- `iterator.map(f).collect::<Result<Vec<_>, _>>()`: apply `f` left to
right, stopping at the first error. -/
def mapME (f : α → Except String β) : List α → Except String (List β)
  | [] => .ok []
  | a :: as =>
    match f a with
    | .error e => .error e
    | .ok b => (mapME f as).map (fun bs => b :: bs)

/-- Big-endian byte decomposition, least-significant byte last:
`bytesBE 8 n` is `(n as u64).to_be_bytes()`. -/
def bytesBE : Nat → Nat → Bytes
  | 0, _ => []
  | k + 1, n => bytesBE k (n / 256) ++ [n % 256]

def be64 (n : Nat) : Bytes := bytesBE 8 n

/-- `u64::from_be_bytes`. -/
def fromBe64 (bs : Bytes) : Nat :=
  bs.foldl (fun a b => a * 256 + b) 0

/-- A `read` call into a buffer of `n` zeros from position `off` of `src`:
the available bytes are copied, the rest of the buffer stays zero, and the
(ignored) short-read count is not an error. -/
def readBytes (src : Bytes) (off n : Nat) : Bytes :=
  let d := (src.drop off).take n
  d ++ List.replicate (n - d.length) 0

/-- The `for (i, size) in block_sizes.iter().enumerate()` loop of
`create_archive_inner` building the `blocks` rows: dense ids from `i0`,
offsets accumulated from `off`. -/
def mkBlockInfosGo (compression_type : String) :
    List Int → Int → Int → List ArchiveBlockInfo
  | [], _, _ => []
  | s :: rest, i, off =>
    ⟨i, s, off, compression_type⟩ :: mkBlockInfosGo compression_type rest (i + 1) (off + s)

/-- The nested `for (i, in_files) in block_files.iter().enumerate()` loop
building the `files` rows (names are already relative to the root). -/
def mkFileRows (plan : List (List (Path × Int × Int))) : List ArchiveFileEntry :=
  (plan.enum.map (fun pr =>
    pr.2.map (fun e => ArchiveFileEntry.mk e.1 (pr.1 : Int) e.2.1 e.2.2))).flatten

/-- Everything `create_archive_inner` produces: the index rows it writes via
`write_index_data` and the final archive file's bytes. -/
structure ArchiveOut where
  blockRows : List ArchiveBlockInfo
  fileRows : List ArchiveFileEntry
  leafRows : List Path
  bytes : Bytes
deriving DecidableEq, Repr

/-- The tail of `create_archive_inner` once all blocks are staged: build the
index rows, write them to the index store (`dbEncode`), compress the index
file WITH THE DATA CODEC `compression_type`, and emit the 8-byte big-endian
length, the compressed index, then the concatenated staged blocks. -/
def assembleArchive (lib : CodecLib) (dbEncode : IndexData → Bytes)
    (compression_type : String) (leaves : List Path)
    (plan : List (List (Path × Int × Int))) (staged : List (Bytes × Int)) :
    Except String ArchiveOut :=
  match compress_data lib compression_type
      (dbEncode ⟨mkFileRows plan, leaves,
        mkBlockInfosGo compression_type (staged.map (fun r => r.2)) 0 0⟩) with
  | .error e => .error e
  | .ok ci =>
    .ok ⟨mkBlockInfosGo compression_type (staged.map (fun r => r.2)) 0 0,
      mkFileRows plan, leaves,
      be64 ci.1.length ++ ci.1 ++ (staged.map (fun r => r.1)).flatten⟩

/-- lib.rs `create_archive_inner`: plan the blocks, compress each one in
plan order (collecting each `compress_block` return as the block's recorded
size), then assemble the index and the final archive bytes. -/
def create_archive_inner (lib : CodecLib) (dbEncode : IndexData → Bytes)
    (fs : InputFS) (compression_type : String) (max_multi_block_size : Option Int) :
    Except String ArchiveOut :=
  match mapME
      (fun bfs => compress_block lib (contentOf fs) bfs compression_type)
      (distribute_files_to_blocks fs (max_multi_block_size.getD DEFAULT_BLOCK_SIZE)).1 with
  | .error e => .error e
  | .ok staged =>
    assembleArchive lib dbEncode compression_type
      (distribute_files_to_blocks fs (max_multi_block_size.getD DEFAULT_BLOCK_SIZE)).2
      (distribute_files_to_blocks fs (max_multi_block_size.getD DEFAULT_BLOCK_SIZE)).1
      staged

/-- lib.rs `create_archive`: builds a rayon pool of `threads` workers and runs
`create_archive_inner` in it.  The pool only affects scheduling (and this
iteration maps over the blocks sequentially anyway), so the model ignores
`threads`. -/
def create_archive (lib : CodecLib) (dbEncode : IndexData → Bytes)
    (fs : InputFS) (compression_type : String) (_threads : Nat)
    (block_size : Option Int) : Except String ArchiveOut :=
  create_archive_inner lib dbEncode fs compression_type block_size

/-- The hydrated reader state (the `files` and `folder_leaves` hash maps are
modelled as the row lists; lookups take the first match). -/
structure ArchiveReader where
  max_mem_extract_size : Int
  files : List ArchiveFileEntry
  folder_leaves : List Path
  block_infos : List ArchiveBlockInfo
deriving DecidableEq, Repr

/-- lib.rs `ArchiveReader::new` over the archive's bytes.  The first 8 bytes
are read as a big-endian `u64` (a short read leaves zeros, unchecked), the
next `index_len` bytes are decompressed WITH THE LZ4 CODEC and handed to the
index store (`dbDecode`), and block offsets get `index_len + 8` added. -/
def ArchiveReader.new (lib : CodecLib) (dbDecode : Bytes → Except String IndexData)
    (archive : Bytes) (max_mem : Option Int) : Except String ArchiveReader :=
  match decompress_data lib "LZ4"
      (readBytes archive 8 (fromBe64 (readBytes archive 0 8))) with
  | .error e => .error ("at decompressing index data: " ++ e)
  | .ok di =>
    match dbDecode di.1 with
    | .error e => .error e
    | .ok idx =>
      .ok ⟨max_mem.getD DEFAULT_MAX_MEM_EXTRACT_SIZE, idx.files, idx.folder_leaves,
        idx.blocks.map (fun b =>
          { b with offset := b.offset + ((fromBe64 (readBytes archive 0 8) : Int) + 8) })⟩

/-- `self.block_infos[block_id as usize]`: a Rust panic on an out-of-range
(or negative, hence huge `usize`) id is modelled as an error. -/
def getBlock (r : ArchiveReader) (block_id : Int) : Except String ArchiveBlockInfo :=
  if block_id < 0 then .error "index out of range"
  else
    match r.block_infos.get? block_id.toNat with
    | some bi => .ok bi
    | none => .error "index out of range"

/-- The shared body of `extract_block_mem` and `extract_block_file`: seek to
the block's absolute offset, read `size` bytes (zero-filled if short) and
decompress them with the block's codec.  The two Rust functions differ only
in where the decompressed bytes land (memory vs a temp file). -/
def extract_block_raw (lib : CodecLib) (archive : Bytes) (bi : ArchiveBlockInfo) :
    Except String Bytes :=
  (decompress_data lib bi.compression_type
    (readBytes archive bi.offset.toNat bi.size.toNat)).map (fun r => r.1)

/-- The in-memory per-file step: `&block_data[start..end]` — a Rust panic
(modelled as an error) when the range leaves the decompressed block. -/
def slice_mem (raw : Bytes) (off sz : Nat) : Except String Bytes :=
  if off + sz ≤ raw.length then .ok ((raw.drop off).take sz)
  else .error "slice index out of range"

/-- The temp-file per-file step: seek to `off`, `take(sz)`, `io::copy` — a
short block yields short output, never a panic. -/
def slice_file (raw : Bytes) (off sz : Nat) : Bytes :=
  (raw.drop off).take sz

/-- lib.rs `extract_file`: look the row up, fetch its block's row, and use the
temp-file path exactly when the block's recorded size exceeds
`max_mem_extract_size`.  The returned flag records which path ran; the bytes
are what lands in the output file. -/
def extract_file (lib : CodecLib) (r : ArchiveReader) (archive : Bytes)
    (name : Path) : Except String (Bool × Bytes) :=
  match r.files.find? (fun q => q.name == name) with
  | none => .error "doesn't exist in archive"
  | some fi =>
    match getBlock r fi.block with
    | .error e => .error e
    | .ok bi =>
      if r.max_mem_extract_size < bi.size then
        (extract_block_raw lib archive bi).map
          (fun raw => (true, slice_file raw fi.offset.toNat fi.size.toNat))
      else
        match extract_block_raw lib archive bi with
        | .error e => .error e
        | .ok raw =>
          (slice_mem raw fi.offset.toNat fi.size.toNat).map (fun b => (false, b))

/-- The `files_per_block` grouping of `extract_files`:
`entry(file.block).or_insert(vec![]).push(file)`. -/
def insertGroup (acc : List (Int × List ArchiveFileEntry)) (f : ArchiveFileEntry) :
    List (Int × List ArchiveFileEntry) :=
  match acc with
  | [] => [(f.block, [f])]
  | (b, fs) :: rest =>
    if b = f.block then (b, fs ++ [f]) :: rest
    else (b, fs) :: insertGroup rest f

def groupByBlock (files : List ArchiveFileEntry) : List (Int × List ArchiveFileEntry) :=
  files.foldl insertGroup []

/-- One iteration of the `for (block_id, file_infos) in files_per_block` loop:
the block is decompressed once (to a temp file when its recorded size exceeds
the threshold, to memory otherwise) and every file of the group is sliced out
of it.  Returns the block id, whether the temp-file path ran, and the
`(name, bytes)` pairs written. -/
def processGroup (lib : CodecLib) (r : ArchiveReader) (archive : Bytes)
    (g : Int × List ArchiveFileEntry) :
    Except String (Int × Bool × List (Path × Bytes)) :=
  match getBlock r g.1 with
  | .error e => .error e
  | .ok bi =>
    if r.max_mem_extract_size < bi.size then
      (extract_block_raw lib archive bi).map (fun raw =>
        (g.1, true, g.2.map (fun f => (f.name, slice_file raw f.offset.toNat f.size.toNat))))
    else
      match extract_block_raw lib archive bi with
      | .error e => .error e
      | .ok raw =>
        (mapME (fun f =>
          (slice_mem raw f.offset.toNat f.size.toNat).map (fun b => (f.name, b)))
          g.2).map
        (fun ws => (g.1, false, ws))

/-- The observable effects of one `extract_files` call: leaf directories
created under the output root, files written (name and bytes), and per
processed block whether the temp-file path ran. -/
structure ExtractRun where
  dirs : List Path
  written : List (Path × Bytes)
  blocks : List (Int × Bool)
deriving DecidableEq, Repr

/-- lib.rs `extract_files`: create the matching leaf directories, group the
matching file rows by block, and process each group.  The regex is modelled
as a match predicate on names (`decompress_archive` passes `".*"`, which
matches every name). -/
def extract_files (lib : CodecLib) (r : ArchiveReader) (archive : Bytes)
    (pat : Path → Bool) : Except String ExtractRun :=
  match mapME (processGroup lib r archive)
      (groupByBlock (r.files.filter (fun f => pat f.name))) with
  | .error e => .error e
  | .ok results =>
    .ok ⟨r.folder_leaves.filter pat, (results.map (fun t => t.2.2)).flatten,
      results.map (fun t => (t.1, t.2.1))⟩

/-- lib.rs `decompress_archive`: open the archive and extract everything. -/
def decompress_archive (lib : CodecLib) (dbDecode : Bytes → Except String IndexData)
    (archive : Bytes) : Except String ExtractRun :=
  match ArchiveReader.new lib dbDecode archive none with
  | .error e => .error ("invalid archive: " ++ e)
  | .ok r =>
    match extract_files lib r archive (fun _ => true) with
    | .error e => .error ("at extracting: " ++ e)
    | .ok run => .ok run

/-! ### Concrete instantiations of the external collaborators

Toy codec and index-store instances used for the concrete evaluation
theorems: each codec tags its input with a distinct leading byte, so the
three codecs are injective, mutually incompatible, and (like the real
framed codecs) produce output longer than a short input. -/

def tagC (t : Nat) : Bytes → Except String Bytes := fun x => .ok (t :: x)

def tagD (t : Nat) : Bytes → Except String Bytes := fun x =>
  match x with
  | y :: rest => if y = t then .ok rest else .error "bad frame"
  | [] => .error "bad frame"

def toyLib : CodecLib :=
  ⟨tagC 7, tagD 7, tagC 9, tagD 9, tagC 5, tagD 5⟩

/-- A one-file input tree: `a.txt` holding `"hello"`. -/
def demoFS : InputFS := ⟨[([("a.txt" : String)], [104, 101, 108, 108, 111])], []⟩

/-- The index rows `create_archive_inner` writes for `demoFS` (any codec
`c`): one file row, no leaves, one block row whose recorded size is the
UNCOMPRESSED length 5. -/
def demoIdx (c : String) : IndexData :=
  ⟨[⟨[("a.txt" : String)], 0, 0, 5⟩], [], [⟨0, 5, 0, c⟩]⟩

/-- Toy index store serialization: the store is a black box, so a constant
tag suffices for the concrete runs. -/
def dbEnc0 : IndexData → Bytes := fun _ => [0]

/-- The matching deserializer, returning exactly the rows the writer stored
for `demoFS` under codec `"LZ4"`. -/
def dbDec1 : Bytes → Except String IndexData := fun b =>
  if b = [0] then .ok (demoIdx "LZ4") else .error "at getting file infos: bad db"

/-- The empty input tree. -/
def fsEmpty : InputFS := ⟨[], []⟩

/-- The index the writer stores for the EMPTY input tree: no file rows, no
block rows, and ONE folder-leaf row — the root itself, which walkdir yields
and which is empty, stored with the empty relative path. -/
def idxEmptyRoot : IndexData := ⟨[], [[]], []⟩

def dbDec7 : Bytes → Except String IndexData := fun b =>
  if b = [0] then .ok idxEmptyRoot else .error "at getting file infos: bad db"

/-! ### Specification-side definitions (for the refinement claims) -/

/-- The packing loop exactly as the specification words it (§4.3 steps 4-5):
"Initialize an empty current block with running offset 0.  For each file in
sorted order: if the current block is non-empty and
running_offset + file_size > B, close the current block and start a new one.
Append (path, running_offset, file_size); advance.  Close the final
non-empty block." -/
def specPackGo (B : Int) :
    List (Path × Int) → List (Path × Int × Int) → Int →
    List (List (Path × Int × Int))
  | [], curr, _ => if curr.length > 0 then [curr] else []
  | (path, size) :: rest, curr, off =>
    if curr.length > 0 ∧ off + size > B then
      curr :: specPackGo B rest [(path, 0, size)] size
    else
      specPackGo B rest (curr ++ [(path, off, size)]) (off + size)

/-- The specification's greedy plan over an already sorted file list. -/
def specPackPlan (B : Int) (files : List (Path × Int)) :
    List (List (Path × Int × Int)) :=
  specPackGo B files [] 0

/-- Sum of the size components of a placement block (the `total_size` of
`compress_block`). -/
def sumSizes (bs : List (Path × Int × Int)) : Int :=
  (bs.map (fun e => e.2.2)).sum

/-- The in-block offsets starting at `off` are gapless and overlap-free:
each entry sits exactly where the previous one ended. -/
def tightFrom : Int → List (Path × Int × Int) → Prop
  | _, [] => True
  | off, e :: rest => e.2.1 = off ∧ tightFrom (off + e.2.2) rest

/-! ### Concrete fixtures for the witness theorems -/

/-- Two files of sizes 1 and 3 bytes. -/
def fs3 : InputFS := ⟨[([("a" : String)], [1]), ([("b" : String)], [2, 3, 4])], []⟩

/-- Two files of sizes 1 and 2 bytes. -/
def fs4 : InputFS := ⟨[([("a" : String)], [1]), ([("b" : String)], [2, 3])], []⟩

/-- Two files of 1 byte each. -/
def fs10 : InputFS := ⟨[([("a" : String)], [1]), ([("b" : String)], [2])], []⟩

/-- The two-file block `fs10` is packed into under a large budget. -/
def bs10 : List (Path × Int × Int) :=
  [([("a" : String)], 0, 1), ([("b" : String)], 1, 1)]

/-- A hand-built archive blob for the extractor fixtures: block 0 is the toy
LZ4 frame `[9, 10, 20]` (raw bytes `[10, 20]`), block 1 at offset 3 is
`[9, 30]` (raw `[30]`). -/
def arch0 : Bytes := [9, 10, 20, 9, 30]

def fe0 : ArchiveFileEntry := ⟨[("a" : String)], 0, 0, 1⟩

def bi0 : ArchiveBlockInfo := ⟨0, 3, 0, "LZ4"⟩

/-- A reader over `arch0`: three one-byte files, two of them sharing
block 0. -/
def r0 : ArchiveReader :=
  ⟨DEFAULT_MAX_MEM_EXTRACT_SIZE,
    [fe0, ⟨[("b" : String)], 0, 1, 1⟩, ⟨[("c" : String)], 1, 0, 1⟩],
    [],
    [bi0, ⟨1, 2, 3, "LZ4"⟩]⟩

/-- What `extract_files` over `r0`/`arch0` with a match-everything pattern
produces. -/
def run0 : ExtractRun :=
  ⟨[], [([("a" : String)], [10]), ([("b" : String)], [20]), ([("c" : String)], [30])],
    [(0, false), (1, false)]⟩

/-- The archive `create_archive_inner` produces for `fs4` under the toy
codecs with budget 1: two single-file blocks, whose recorded sizes are the
uncompressed lengths 1 and 2. -/
def out4 : ArchiveOut :=
  ⟨[⟨0, 1, 0, "LZ4"⟩, ⟨1, 2, 1, "LZ4"⟩],
    [⟨[("a" : String)], 0, 0, 1⟩, ⟨[("b" : String)], 1, 0, 2⟩],
    [],
    [0, 0, 0, 0, 0, 0, 0, 2, 9, 0, 9, 1, 9, 2, 3]⟩

/-! ## Lemmas about the packer -/

instance : IsTotal (Path × Int) (fun a b => a.2 ≤ b.2) :=
  ⟨fun a b => Int.le_total a.2 b.2⟩

instance : IsTrans (Path × Int) (fun a b => a.2 ≤ b.2) :=
  ⟨fun _ _ _ h1 h2 => le_trans h1 h2⟩

/-- The explicit-accumulator loop of the source equals the specification's
recursion with the closed blocks prepended. -/
lemma distributeGo_eq (B : Int) :
    ∀ (rest : List (Path × Int)) (acc : List (List (Path × Int × Int)))
      (curr : List (Path × Int × Int)) (off : Int),
      distributeGo B rest acc curr off = acc ++ specPackGo B rest curr off := by
  intro rest
  induction rest with
  | nil =>
    intro acc curr off
    rw [distributeGo, specPackGo]
    split
    · rfl
    · exact (List.append_nil acc).symm
  | cons f rest ih =>
    obtain ⟨p, s⟩ := f
    intro acc curr off
    by_cases h : off + s > B ∧ curr.length > 0
    · rw [distributeGo, specPackGo, if_pos h, if_pos ⟨h.2, h.1⟩, ih]
      simp
    · rw [distributeGo, specPackGo, if_neg h, if_neg (fun hh => h ⟨hh.2, hh.1⟩), ih]

@[simp] lemma sumSizes_nil : sumSizes [] = 0 := rfl

@[simp] lemma sumSizes_cons (e : Path × Int × Int) (bs : List (Path × Int × Int)) :
    sumSizes (e :: bs) = e.2.2 + sumSizes bs := by
  simp [sumSizes]

@[simp] lemma sumSizes_append (bs ys : List (Path × Int × Int)) :
    sumSizes (bs ++ ys) = sumSizes bs + sumSizes ys := by
  simp [sumSizes]

lemma sumSizes_nonneg (bs : List (Path × Int × Int))
    (h : ∀ e ∈ bs, 0 ≤ e.2.2) : 0 ≤ sumSizes bs := by
  induction bs with
  | nil => simp
  | cons e bs ih =>
    have h1 := h e (List.mem_cons_self e bs)
    have h2 := ih (fun x hx => h x (List.mem_cons_of_mem e hx))
    simp only [sumSizes_cons]
    omega

lemma tightFrom_append (bs ys : List (Path × Int × Int)) :
    ∀ a : Int, tightFrom a bs → tightFrom (a + sumSizes bs) ys →
      tightFrom a (bs ++ ys) := by
  induction bs with
  | nil =>
    intro a _ h2
    simpa using h2
  | cons e bs ih =>
    intro a h1 h2
    obtain ⟨he, ht⟩ := h1
    refine ⟨he, ih (a + e.2.2) ht ?_⟩
    have : a + e.2.2 + sumSizes bs = a + sumSizes (e :: bs) := by
      simp only [sumSizes_cons]; ring
    rw [this]
    exact h2

lemma tightFrom_bounds (bs : List (Path × Int × Int)) :
    ∀ a : Int, tightFrom a bs → (∀ e ∈ bs, 0 ≤ e.2.2) →
      ∀ e ∈ bs, a ≤ e.2.1 ∧ e.2.1 + e.2.2 ≤ a + sumSizes bs := by
  induction bs with
  | nil => intro a _ _ e he; cases he
  | cons x bs ih =>
    intro a ht hn e he
    obtain ⟨hx, ht'⟩ := ht
    have hnb : ∀ y ∈ bs, 0 ≤ y.2.2 := fun y hy => hn y (List.mem_cons_of_mem x hy)
    rcases List.mem_cons.mp he with rfl | he'
    · have := sumSizes_nonneg bs hnb
      constructor
      · omega
      · simp only [sumSizes_cons]; omega
    · have := ih (a + x.2.2) ht' hnb e he'
      have hx2 := hn x (List.mem_cons_self x bs)
      constructor
      · omega
      · simp only [sumSizes_cons]; omega

/-- The central invariant of the packing loop: every emitted block is tightly
packed from offset 0, has non-negative sizes, and a file strictly larger than
the budget is the sole member of its block. -/
lemma specPackGo_blocks (B : Int) :
    ∀ (rest : List (Path × Int)) (curr : List (Path × Int × Int)) (off : Int),
      (∀ f ∈ rest, 0 ≤ f.2) →
      (∀ e ∈ curr, 0 ≤ e.2.2) →
      tightFrom 0 curr →
      off = sumSizes curr →
      (∀ e ∈ curr, B < e.2.2 → curr = [e]) →
      ∀ bs ∈ specPackGo B rest curr off,
        tightFrom 0 bs ∧ (∀ e ∈ bs, 0 ≤ e.2.2) ∧
          ∀ e ∈ bs, B < e.2.2 → bs = [e] := by
  intro rest
  induction rest with
  | nil =>
    intro curr off _ hnon htight _ hbig bs hbs
    rw [specPackGo] at hbs
    split at hbs
    · rcases List.mem_singleton.mp hbs with rfl
      exact ⟨htight, hnon, hbig⟩
    · cases hbs
  | cons f rest ih =>
    obtain ⟨p, s⟩ := f
    intro curr off hrest hnon htight hoff hbig bs hbs
    have hs : 0 ≤ s := hrest (p, s) (List.mem_cons_self _ _)
    have hrest' : ∀ f ∈ rest, 0 ≤ f.2 :=
      fun f hf => hrest f (List.mem_cons_of_mem _ hf)
    have hoff0 : 0 ≤ off := hoff ▸ sumSizes_nonneg curr hnon
    by_cases hcond : curr.length > 0 ∧ off + s > B
    · rw [specPackGo, if_pos hcond] at hbs
      rcases List.mem_cons.mp hbs with rfl | hbs'
      · exact ⟨htight, hnon, hbig⟩
      · refine ih [(p, 0, s)] s ?_ ?_ ?_ ?_ ?_ bs hbs'
        · exact hrest'
        · intro e he; rcases List.mem_singleton.mp he with rfl; exact hs
        · exact ⟨rfl, trivial⟩
        · simp
        · intro e he _; rcases List.mem_singleton.mp he with rfl; rfl
    · rw [specPackGo, if_neg hcond] at hbs
      refine ih (curr ++ [(p, off, s)]) (off + s) hrest' ?_ ?_ ?_ ?_ bs hbs
      · intro e he
        rcases List.mem_append.mp he with he' | he'
        · exact hnon e he'
        · rcases List.mem_singleton.mp he' with rfl; exact hs
      · refine tightFrom_append curr [(p, off, s)] 0 htight ?_
        refine ⟨?_, trivial⟩
        show off = 0 + sumSizes curr
        omega
      · have hsum : sumSizes (curr ++ [(p, off, s)]) = sumSizes curr + (s + 0) := by
          rw [sumSizes_append, sumSizes_cons, sumSizes_nil]
        omega
      · intro e he hBe
        rcases List.mem_append.mp he with he' | he'
        · exfalso
          have hce := hbig e he' hBe
          have hlen : curr.length > 0 := by rw [hce]; simp
          have : off = e.2.2 := by rw [hce] at hoff; simpa using hoff
          exact hcond ⟨hlen, by omega⟩
        · rcases List.mem_singleton.mp he' with rfl
          have hBs : B < s := hBe
          rcases List.eq_nil_or_concat curr with hc | ⟨l2, b2, hc2⟩
          · subst hc
            simp at hoff
            simp [hoff]
          · exfalso
            have hlen : curr.length > 0 := by rw [hc2]; simp
            exact hcond ⟨hlen, by omega⟩

/-- Every size entering the packing loop is a file length, hence
non-negative. -/
lemma sorted_sizes_nonneg (fs : InputFS) :
    ∀ f ∈ sortFilesBySize (fs.files.map (fun q => (q.1, (q.2.length : Int)))),
      0 ≤ f.2 := by
  intro f hf
  have hperm := List.perm_insertionSort
    (fun (a b : Path × Int) => a.2 ≤ b.2)
    (fs.files.map (fun q => (q.1, (q.2.length : Int))))
  have hf' : f ∈ fs.files.map (fun q => (q.1, (q.2.length : Int))) :=
    hperm.mem_iff.mp hf
  obtain ⟨q, _, rfl⟩ := List.mem_map.mp hf'
  exact Int.natCast_nonneg _

/-- The plan component of `distribute_files_to_blocks`, re-expressed through
the specification's recursion. -/
lemma distribute_eq_specPack (fs : InputFS) (B : Int) :
    (distribute_files_to_blocks fs B).1
      = specPackPlan B
          (sortFilesBySize (fs.files.map (fun q => (q.1, (q.2.length : Int))))) := by
  show distributeGo B _ [] [] 0 = _
  rw [distributeGo_eq, specPackPlan, List.nil_append]

/-- Claim C3.  The placement plan is the specification's
sort-then-greedy-fill plan: the input files are stably sorted ascending by
size, the loop opens a new block exactly when the current one is non-empty
and the running offset would exceed the budget, and consequently any file
strictly larger than the budget `B` is the sole member of its block. -/
theorem packer_greedy_plan (fs : InputFS) (B : Int) :
    (distribute_files_to_blocks fs B).1
        = specPackPlan B
            (sortFilesBySize (fs.files.map (fun q => (q.1, (q.2.length : Int)))))
      ∧ (sortFilesBySize (fs.files.map (fun q => (q.1, (q.2.length : Int))))).Sorted
          (fun a b => a.2 ≤ b.2)
      ∧ ∀ bs ∈ (distribute_files_to_blocks fs B).1,
          ∀ e ∈ bs, B < e.2.2 → bs = [e] := by
  refine ⟨distribute_eq_specPack fs B, ?_, ?_⟩
  · exact List.sorted_insertionSort _ _
  · intro bs hbs e he hBe
    rw [distribute_eq_specPack] at hbs
    have hbs' : bs ∈ specPackGo B
        (sortFilesBySize (fs.files.map (fun q => (q.1, (q.2.length : Int))))) [] 0 := hbs
    have := specPackGo_blocks B
      (sortFilesBySize (fs.files.map (fun q => (q.1, (q.2.length : Int))))) [] 0
      (sorted_sizes_nonneg fs)
      (fun e he => absurd he (List.not_mem_nil e))
      trivial
      rfl
      (fun e he => absurd he (List.not_mem_nil e))
      bs hbs'
    exact this.2.2 e he hBe

/-- The buffer keeps its length under one in-bounds region write. -/
lemma writeRegion_length (buf data : Bytes) (off sz : Nat)
    (h : off + sz ≤ buf.length) :
    (writeRegion buf off sz data).length = buf.length := by
  unfold writeRegion
  simp only [List.length_append, List.length_take, List.length_drop]
  omega

/-- Folding in-bounds region writes keeps the buffer length. -/
lemma foldl_writeRegion_length (bs : List (Path × Int × Int)) :
    ∀ (content : Path → Bytes) (buf : Bytes),
      (∀ e ∈ bs, 0 ≤ e.2.1 ∧ 0 ≤ e.2.2 ∧ e.2.1 + e.2.2 ≤ (buf.length : Int)) →
      (bs.foldl (fun b e => writeRegion b e.2.1.toNat e.2.2.toNat (content e.1)) buf).length
        = buf.length := by
  induction bs with
  | nil => intro content buf _; rfl
  | cons e bs ih =>
    intro content buf h
    have he := h e (List.mem_cons_self e bs)
    have hw : (writeRegion buf e.2.1.toNat e.2.2.toNat (content e.1)).length
        = buf.length := by
      refine writeRegion_length buf (content e.1) e.2.1.toNat e.2.2.toNat ?_
      omega
    rw [List.foldl_cons, ih content _ (fun x hx => hw ▸ h x (List.mem_cons_of_mem e hx)), hw]

/-- The multi-file buffer of `compress_block` has exactly `sum of sizes`
bytes when the block is tightly packed with non-negative sizes. -/
lemma mkBlockBuffer_length (content : Path → Bytes) (bs : List (Path × Int × Int))
    (htight : tightFrom 0 bs) (hnon : ∀ e ∈ bs, 0 ≤ e.2.2) :
    (mkBlockBuffer content bs (sumSizes bs)).length = (sumSizes bs).toNat := by
  have hsum := sumSizes_nonneg bs hnon
  have hb := tightFrom_bounds bs 0 htight hnon
  unfold mkBlockBuffer
  rw [foldl_writeRegion_length]
  · exact List.length_replicate _ _
  · intro e he
    have := hb e he
    rw [List.length_replicate]
    constructor
    · omega
    constructor
    · exact hnon e he
    · rw [Int.toNat_of_nonneg hsum]
      omega

/-- Claim C10.  Every block of the placement plan is tightly packed — the
first file at offset 0, each next file exactly where the previous ended —
and the block writer's buffer, sized to the sum of the file sizes, has
exactly that length. -/
theorem blocks_tightly_packed (fs : InputFS) (B : Int) :
    ∀ bs ∈ (distribute_files_to_blocks fs B).1,
      tightFrom 0 bs ∧
      ∀ content : Path → Bytes,
        (mkBlockBuffer content bs (sumSizes bs)).length = (sumSizes bs).toNat := by
  intro bs hbs
  rw [distribute_eq_specPack] at hbs
  have hbs' : bs ∈ specPackGo B
      (sortFilesBySize (fs.files.map (fun q => (q.1, (q.2.length : Int))))) [] 0 := hbs
  have hinv := specPackGo_blocks B
    (sortFilesBySize (fs.files.map (fun q => (q.1, (q.2.length : Int))))) [] 0
    (sorted_sizes_nonneg fs)
    (fun e he => absurd he (List.not_mem_nil e))
    trivial
    rfl
    (fun e he => absurd he (List.not_mem_nil e))
    bs hbs'
  exact ⟨hinv.1, fun content => mkBlockBuffer_length content bs hinv.1 hinv.2.1⟩

/-! ## Lemmas about the block rows -/

lemma mkBlockInfosGo_head (c : String) (sizes : List Int) (i0 off0 : Int)
    (h0 : 0 < (mkBlockInfosGo c sizes i0 off0).length) :
    ((mkBlockInfosGo c sizes i0 off0).get ⟨0, h0⟩).offset = off0 := by
  cases sizes with
  | nil => simp [mkBlockInfosGo] at h0
  | cons s rest => rfl

lemma mkBlockInfosGo_succ (c : String) :
    ∀ (sizes : List Int) (i0 off0 : Int) (j : Nat)
      (hj : j + 1 < (mkBlockInfosGo c sizes i0 off0).length),
      ((mkBlockInfosGo c sizes i0 off0).get ⟨j + 1, hj⟩).offset
        = ((mkBlockInfosGo c sizes i0 off0).get ⟨j, Nat.lt_of_succ_lt hj⟩).offset
          + ((mkBlockInfosGo c sizes i0 off0).get ⟨j, Nat.lt_of_succ_lt hj⟩).size := by
  intro sizes
  induction sizes with
  | nil => intro i0 off0 j hj; simp [mkBlockInfosGo] at hj
  | cons s rest ih =>
    intro i0 off0 j hj
    cases j with
    | zero =>
      have h0 : 0 < (mkBlockInfosGo c rest (i0 + 1) (off0 + s)).length := by
        have := hj
        rw [mkBlockInfosGo, List.length_cons] at this
        omega
      show ((mkBlockInfosGo c rest (i0 + 1) (off0 + s)).get ⟨0, h0⟩).offset = off0 + s
      exact mkBlockInfosGo_head c rest (i0 + 1) (off0 + s) h0
    | succ j =>
      have hj' : j + 1 < (mkBlockInfosGo c rest (i0 + 1) (off0 + s)).length := by
        have := hj
        rw [mkBlockInfosGo, List.length_cons] at this
        omega
      show ((mkBlockInfosGo c rest (i0 + 1) (off0 + s)).get ⟨j + 1, hj'⟩).offset = _
      rw [ih (i0 + 1) (off0 + s) j hj']
      rfl

/-- Inversion for a successful archive creation: the block rows come from
the offset-accumulating loop. -/
lemma create_blockRows (lib : CodecLib) (dbE : IndexData → Bytes) (fs : InputFS)
    (codec : String) (Bopt : Option Int) (out : ArchiveOut)
    (h : create_archive_inner lib dbE fs codec Bopt = .ok out) :
    ∃ sizes : List Int, out.blockRows = mkBlockInfosGo codec sizes 0 0 := by
  unfold create_archive_inner at h
  split at h
  · exact absurd h (by simp)
  · unfold assembleArchive at h
    split at h
    · exact absurd h (by simp)
    · cases h
      exact ⟨_, rfl⟩

/-- Claim C4.  In every archive `create_archive` produces, the block rows
are contiguous: the first offset is 0 and each next offset is the previous
offset plus the previous size. -/
theorem block_rows_contiguous (lib : CodecLib) (dbE : IndexData → Bytes)
    (fs : InputFS) (codec : String) (Bopt : Option Int) (out : ArchiveOut)
    (h : create_archive_inner lib dbE fs codec Bopt = .ok out) :
    (∀ h0 : 0 < out.blockRows.length, (out.blockRows.get ⟨0, h0⟩).offset = 0) ∧
    ∀ j (hj : j + 1 < out.blockRows.length),
      (out.blockRows.get ⟨j + 1, hj⟩).offset
        = (out.blockRows.get ⟨j, Nat.lt_of_succ_lt hj⟩).offset
          + (out.blockRows.get ⟨j, Nat.lt_of_succ_lt hj⟩).size := by
  obtain ⟨sizes, hrows⟩ := create_blockRows lib dbE fs codec Bopt out h
  constructor
  · rw [hrows]
    intro h0
    exact mkBlockInfosGo_head codec sizes 0 0 h0
  · rw [hrows]
    intro j hj
    exact mkBlockInfosGo_succ codec sizes 0 0 j hj

/-! ## Lemmas about the container layout -/

@[simp] lemma bytesBE_length : ∀ (k n : Nat), (bytesBE k n).length = k := by
  intro k
  induction k with
  | zero => intro n; rfl
  | succ k ih => intro n; simp [bytesBE, ih]

lemma fromBe64_bytesBE : ∀ (k n : Nat), n < 256 ^ k → fromBe64 (bytesBE k n) = n := by
  intro k
  induction k with
  | zero =>
    intro n hn
    simp [pow_zero] at hn
    simp [hn, bytesBE, fromBe64]
  | succ k ih =>
    intro n hn
    have hdiv : n / 256 < 256 ^ k := by
      rw [Nat.div_lt_iff_lt_mul (by norm_num)]
      calc n < 256 ^ (k + 1) := hn
        _ = 256 ^ k * 256 := by ring
    rw [bytesBE, fromBe64, List.foldl_append]
    have hc : List.foldl (fun a b => a * 256 + b) 0 (bytesBE k (n / 256)) = n / 256 :=
      ih (n / 256) hdiv
    rw [hc]
    show n / 256 * 256 + n % 256 = n
    omega

lemma fromBe64_be64 (n : Nat) (h : n < 2 ^ 64) : fromBe64 (be64 n) = n := by
  refine fromBe64_bytesBE 8 n ?_
  calc n < 2 ^ 64 := h
    _ = 256 ^ 8 := by norm_num

@[simp] lemma be64_length (n : Nat) : (be64 n).length = 8 := bytesBE_length 8 n

/-- Reading exactly the leading bytes of a stream. -/
lemma readBytes_left (xs ys : Bytes) : readBytes (xs ++ ys) 0 xs.length = xs := by
  unfold readBytes
  rw [List.drop_zero, List.take_left]
  simp

/-- Reading exactly the trailing bytes of a stream. -/
lemma readBytes_right (xs ys : Bytes) : readBytes (xs ++ ys) xs.length ys.length = ys := by
  unfold readBytes
  rw [List.drop_left, List.take_length]
  simp

/-- Claim C7 (amended).  Creating an archive from the EMPTY input directory
with the LZ4 codec yields zero block rows, zero file rows and ONE folder-leaf
row — the root, recorded with the empty relative path — and decompressing
the archive extracts no files and recreates only that root, i.e. an empty
output directory.  The hypotheses say that the external LZ4 codec
round-trips the serialized index and that the index store round-trips the
index rows. -/
theorem empty_dir_archive_lz4 (lib : CodecLib) (dbE : IndexData → Bytes)
    (dbD : Bytes → Except String IndexData) (Bopt : Option Int) (c : Bytes)
    (hc : lib.lz4C (dbE idxEmptyRoot) = .ok c)
    (hlen : c.length < 2 ^ 64)
    (hd : lib.lz4D c = .ok (dbE idxEmptyRoot))
    (hdb : dbD (dbE idxEmptyRoot) = .ok idxEmptyRoot) :
    create_archive_inner lib dbE fsEmpty "LZ4" Bopt
        = .ok ⟨[], [], [[]], be64 c.length ++ c⟩
      ∧ decompress_archive lib dbD (be64 c.length ++ c) = .ok ⟨[[]], [], []⟩ := by
  constructor
  · have h1 : create_archive_inner lib dbE fsEmpty "LZ4" Bopt
        = assembleArchive lib dbE "LZ4" [[]] [] [] := rfl
    rw [h1]
    unfold assembleArchive
    have h2 : compress_data lib "LZ4"
        (dbE ⟨mkFileRows [], [[]],
          mkBlockInfosGo "LZ4" (List.map (fun r => r.2) ([] : List (Bytes × Int))) 0 0⟩)
        = .ok (c, (dbE idxEmptyRoot).length) := by
      show (lib.lz4C (dbE idxEmptyRoot)).map _ = _
      rw [hc]
      rfl
    rw [h2]
    simp
    exact ⟨rfl, rfl⟩
  · have hr : ArchiveReader.new lib dbD (be64 c.length ++ c) none
        = .ok ⟨DEFAULT_MAX_MEM_EXTRACT_SIZE, [], [[]], []⟩ := by
      unfold ArchiveReader.new
      have e1 : readBytes (be64 c.length ++ c) 0 8 = be64 c.length := by
        have := readBytes_left (be64 c.length) c
        rwa [be64_length] at this
      have e2 : fromBe64 (be64 c.length) = c.length := fromBe64_be64 c.length hlen
      have e3 : readBytes (be64 c.length ++ c) 8 c.length = c := by
        have := readBytes_right (be64 c.length) c
        rwa [be64_length] at this
      rw [e1, e2, e3]
      have e4 : decompress_data lib "LZ4" c = .ok (dbE idxEmptyRoot, (dbE idxEmptyRoot).length) := by
        show (lib.lz4D c).map _ = _
        rw [hd]
        rfl
      rw [e4]
      show (match dbD (dbE idxEmptyRoot) with
        | Except.error e => Except.error e
        | Except.ok idx => _) = _
      rw [hdb]
      rfl
    unfold decompress_archive
    rw [hr]
    rfl

/-! ## Lemmas about bulk extraction -/

lemma insertGroup_keys (f : ArchiveFileEntry) :
    ∀ acc : List (Int × List ArchiveFileEntry),
      (insertGroup acc f).map Prod.fst
        = if f.block ∈ acc.map Prod.fst then acc.map Prod.fst
          else acc.map Prod.fst ++ [f.block] := by
  intro acc
  induction acc with
  | nil => simp [insertGroup]
  | cons g rest ih =>
    obtain ⟨b, fs⟩ := g
    by_cases hb : b = f.block
    · subst hb
      rw [insertGroup, if_pos rfl, List.map_cons, List.map_cons,
        if_pos (List.mem_cons_self _ _)]
    · rw [insertGroup, if_neg hb, List.map_cons, List.map_cons, ih]
      by_cases hr : f.block ∈ rest.map Prod.fst
      · rw [if_pos hr, if_pos (List.mem_cons_of_mem _ hr)]
      · rw [if_neg hr, if_neg ?hno, List.cons_append]
        case hno =>
          intro hmem
          rcases List.mem_cons.mp hmem with h1 | h2
          · exact hb h1.symm
          · exact hr h2

lemma insertGroup_keys_nodup (f : ArchiveFileEntry)
    (acc : List (Int × List ArchiveFileEntry))
    (h : (acc.map Prod.fst).Nodup) : ((insertGroup acc f).map Prod.fst).Nodup := by
  rw [insertGroup_keys]
  split
  · exact h
  next hno =>
    rw [List.nodup_append]
    exact ⟨h, List.nodup_singleton _, by simpa using hno⟩

lemma groupByBlock_keys_nodup (files : List ArchiveFileEntry) :
    ((groupByBlock files).map Prod.fst).Nodup := by
  have haux : ∀ (fs : List ArchiveFileEntry) (acc : List (Int × List ArchiveFileEntry)),
      (acc.map Prod.fst).Nodup → ((fs.foldl insertGroup acc).map Prod.fst).Nodup := by
    intro fs
    induction fs with
    | nil => intro acc h; exact h
    | cons f fs ih =>
      intro acc h
      exact ih (insertGroup acc f) (insertGroup_keys_nodup f acc h)
  exact haux files [] (by simp)

/-- A successfully processed group reports the group's own block id. -/
lemma processGroup_id (lib : CodecLib) (r : ArchiveReader) (archive : Bytes)
    (g : Int × List ArchiveFileEntry) (t : Int × Bool × List (Path × Bytes))
    (h : processGroup lib r archive g = .ok t) : t.1 = g.1 := by
  unfold processGroup at h
  split at h
  · exact Except.noConfusion h
  next bi _ =>
    split at h
    · rcases hx : extract_block_raw lib archive bi with e | raw
      · rw [hx] at h
        exact Except.noConfusion h
      · rw [hx] at h
        have h' : Except.ok (ε := String)
            (g.1, true, g.2.map (fun f => (f.name, slice_file raw f.offset.toNat f.size.toNat)))
            = .ok t := h
        cases h'
        rfl
    · split at h
      · exact Except.noConfusion h
      next raw _ =>
        rcases hm : mapME (fun f =>
            (slice_mem raw f.offset.toNat f.size.toNat).map (fun b => (f.name, b))) g.2
          with e | ws
        · rw [hm] at h
          exact Except.noConfusion h
        · rw [hm] at h
          have h' : Except.ok (ε := String) (g.1, false, ws) = .ok t := h
          cases h'
          rfl

/-- The successful results of mapping `processGroup` over the groups carry
the groups' keys, in order. -/
lemma mapME_processGroup_keys (lib : CodecLib) (r : ArchiveReader) (archive : Bytes) :
    ∀ (groups : List (Int × List ArchiveFileEntry))
      (results : List (Int × Bool × List (Path × Bytes))),
      mapME (processGroup lib r archive) groups = .ok results →
      results.map (fun t => t.1) = groups.map Prod.fst := by
  intro groups
  induction groups with
  | nil =>
    intro results h
    have h' : Except.ok (ε := String) ([] : List (Int × Bool × List (Path × Bytes)))
        = .ok results := h
    cases h'
    rfl
  | cons g gs ih =>
    intro results h
    rw [mapME] at h
    split at h
    · exact Except.noConfusion h
    next t ht =>
      rcases hm : mapME (processGroup lib r archive) gs with e | ts
      · rw [hm] at h
        exact Except.noConfusion h
      · rw [hm] at h
        have h' : Except.ok (ε := String) (t :: ts) = .ok results := h
        cases h'
        have := processGroup_id lib r archive g t ht
        simp [this, ih ts hm]

/-- Claim C8.  In any successful `extract_files` call, the processed blocks
(each of which is decompressed exactly once when its group is processed)
are pairwise distinct: no block is decompressed twice. -/
theorem bulk_extract_blocks_nodup (lib : CodecLib) (r : ArchiveReader)
    (archive : Bytes) (pat : Path → Bool) (run : ExtractRun)
    (h : extract_files lib r archive pat = .ok run) :
    (run.blocks.map Prod.fst).Nodup := by
  unfold extract_files at h
  split at h
  · exact Except.noConfusion h
  next results hres =>
    have h' : Except.ok (ε := String)
        (ExtractRun.mk (r.folder_leaves.filter pat)
          ((results.map (fun t => t.2.2)).flatten)
          (results.map (fun t => (t.1, t.2.1))))
        = .ok run := h
    cases h'
    show ((results.map (fun t => (t.1, t.2.1))).map Prod.fst).Nodup
    rw [List.map_map]
    have hkeys : (results.map (Prod.fst ∘ fun t => (t.1, t.2.1)))
        = (groupByBlock (r.files.filter (fun f => pat f.name))).map Prod.fst := by
      have := mapME_processGroup_keys lib r archive
        (groupByBlock (r.files.filter (fun f => pat f.name))) results hres
      simpa [Function.comp] using this
    rw [hkeys]
    exact groupByBlock_keys_nodup _

/-- Claim C9.  First conjunct: a successful `extract_file` run took the
temp-file decompression path exactly when the block's recorded size exceeds
the spill threshold.  Second conjunct: whenever the file's range lies inside
the decompressed block (spec §3 invariant 1), the in-memory slice and the
temp-file seek-and-take produce identical bytes. -/
theorem spill_selection_and_path_equiv :
    (∀ (lib : CodecLib) (r : ArchiveReader) (archive : Bytes) (name : Path)
        (b : Bool) (out : Bytes) (fi : ArchiveFileEntry) (bi : ArchiveBlockInfo),
      r.files.find? (fun q => q.name == name) = some fi →
      getBlock r fi.block = .ok bi →
      extract_file lib r archive name = .ok (b, out) →
      (b = true ↔ r.max_mem_extract_size < bi.size))
    ∧ ∀ (raw : Bytes) (off sz : Nat), off + sz ≤ raw.length →
        slice_mem raw off sz = .ok (slice_file raw off sz) := by
  constructor
  · intro lib r archive name b out fi bi hfind hblock h
    unfold extract_file at h
    split at h
    · exact Except.noConfusion h
    next fi2 hfi2 =>
      rw [hfind] at hfi2
      injection hfi2 with hfi2
      subst hfi2
      split at h
      · exact Except.noConfusion h
      next bi2 hbi2 =>
        rw [hblock] at hbi2
        injection hbi2 with hbi2
        subst hbi2
        split at h
        next hcond =>
          rcases hx : extract_block_raw lib archive bi with e | raw
          · rw [hx] at h
            exact Except.noConfusion h
          · rw [hx] at h
            have h' : Except.ok (ε := String)
                (true, slice_file raw fi.offset.toNat fi.size.toNat) = .ok (b, out) := h
            cases h'
            simp [hcond]
        next hcond =>
          split at h
          · exact Except.noConfusion h
          next raw _ =>
            rcases hs : slice_mem raw fi.offset.toNat fi.size.toNat with e | bytes
            · rw [hs] at h
              exact Except.noConfusion h
            · rw [hs] at h
              have h' : Except.ok (ε := String) (false, bytes) = .ok (b, out) := h
              cases h'
              simp [hcond]
  · intro raw off sz h
    unfold slice_mem slice_file
    rw [if_pos h]

/-! ## Concrete evaluation theorems for the divergences, and witnesses -/

/-- Claim C1 (failing-input evaluation).  For the one-file tree `demoFS`
(`a.txt` = five bytes) and codec `"LZ4"`, `create_archive_inner` succeeds but
records the block's size as 5 — the UNCOMPRESSED length `compress_block`
returns for a single-file block — while the blob holds the 6-byte compressed
frame.  Opening and fully extracting the produced archive therefore reads a
truncated block and fails on an out-of-range slice instead of reproducing
`a.txt`: the round trip is broken. -/
theorem single_file_block_roundtrip_fails :
    create_archive_inner toyLib dbEnc0 demoFS "LZ4" none
        = .ok ⟨[⟨0, 5, 0, "LZ4"⟩], [⟨[("a.txt" : String)], 0, 0, 5⟩], [],
            [0, 0, 0, 0, 0, 0, 0, 2, 9, 0, 9, 104, 101, 108, 108, 111]⟩
      ∧ (create_archive_inner toyLib dbEnc0 demoFS "LZ4" none).bind
          (fun out => decompress_archive toyLib dbDec1 out.bytes)
        = .error "at extracting: slice index out of range" :=
  ⟨rfl, rfl⟩

/-- Claim C2 (failing-input evaluation).  With data codec `"ZSTD"`, the
HEADER_LEN bytes after the 8-byte prefix are the ZSTD compression of the
index file, not its LZ4 compression, and `ArchiveReader::new` — which always
decompresses the index as LZ4 — fails on the archive the writer just
produced. -/
theorem index_compressed_with_data_codec :
    (create_archive_inner toyLib dbEnc0 demoFS "ZSTD" none).map
        (fun out => readBytes out.bytes 8 (fromBe64 (readBytes out.bytes 0 8)))
      = .ok [5, 0]
    ∧ compress_data toyLib "ZSTD" (dbEnc0 (demoIdx "ZSTD")) = .ok ([5, 0], 1)
    ∧ compress_data toyLib "LZ4" (dbEnc0 (demoIdx "ZSTD")) = .ok ([9, 0], 1)
    ∧ ([5, 0] : Bytes) ≠ [9, 0]
    ∧ (create_archive_inner toyLib dbEnc0 demoFS "ZSTD" none).bind
        (fun out => ArchiveReader.new toyLib dbDec1 out.bytes none)
      = .error "at decompressing index data: bad frame" :=
  ⟨rfl, rfl, rfl, by decide, rfl⟩

/-- Claim C5 (failing-input evaluation).  The codec dispatch has no `"NONE"`
arm: both `compress_data` and `decompress_data` reject the label `"NONE"`
with "unknown compression type" for every input and every underlying codec
library, instead of acting as a pass-through. -/
theorem codec_none_rejected (lib : CodecLib) (input : Bytes) :
    compress_data lib "NONE" input = .error "unknown compression type"
      ∧ decompress_data lib "NONE" input = .error "unknown compression type" :=
  ⟨rfl, rfl⟩

/-- Claim C6 (failing-input evaluation).  Opening the 7-byte file
`[0,0,0,0,0,0,1]`: the reader ignores the short read of the 8-byte header,
zero-fills the missing byte (header = `[0,0,0,0,0,0,1,0]`, index_len = 256),
and fails only later, while decompressing 256 zero bytes as the LZ4 index —
the error is the decompress-stage message, not a header-too-short
diagnosis. -/
theorem short_archive_error_not_header :
    ArchiveReader.new toyLib dbDec1 [0, 0, 0, 0, 0, 0, 1] none
        = .error "at decompressing index data: bad frame"
      ∧ readBytes [0, 0, 0, 0, 0, 0, 1] 0 8 = [0, 0, 0, 0, 0, 0, 1, 0]
      ∧ fromBe64 [0, 0, 0, 0, 0, 0, 1, 0] = 256 :=
  ⟨rfl, rfl, rfl⟩

/-- Claim C7 (counterexample).  As stated the claim is false: even under the
LZ4 codec the empty input directory yields ONE folder-leaf row (the walked
root, empty at pack time, stored with the empty relative path), not zero;
and with the default ZSTD codec the produced archive cannot even be
reopened, because the index was compressed with the data codec. -/
theorem empty_dir_leaf_row_cex :
    (create_archive_inner toyLib dbEnc0 fsEmpty "LZ4" none).map ArchiveOut.leafRows
        = .ok [[]]
      ∧ (create_archive_inner toyLib dbEnc0 fsEmpty "ZSTD" none).bind
          (fun out => decompress_archive toyLib dbDec7 out.bytes)
        = .error "invalid archive: at decompressing index data: bad frame" :=
  ⟨rfl, rfl⟩

/-- Witness for C7: the amended statement at the toy instantiation. -/
theorem empty_dir_archive_lz4_witness :
    create_archive_inner toyLib dbEnc0 fsEmpty "LZ4" none
        = .ok ⟨[], [], [[]], be64 2 ++ [9, 0]⟩
      ∧ decompress_archive toyLib dbDec7 (be64 2 ++ [9, 0]) = .ok ⟨[[]], [], []⟩ :=
  empty_dir_archive_lz4 toyLib dbEnc0 dbDec7 none [9, 0] rfl (by norm_num) rfl rfl

/-- Witness for C3: the packer at a concrete two-file tree with budget 2;
the 3-byte file exceeds the budget and sits alone in its block. -/
theorem packer_greedy_plan_witness :
    (distribute_files_to_blocks fs3 2).1
        = specPackPlan 2 (sortFilesBySize (fs3.files.map (fun q => (q.1, (q.2.length : Int)))))
      ∧ [([("b" : String)], (0 : Int), (3 : Int))] = [([("b" : String)], 0, 3)] :=
  ⟨(packer_greedy_plan fs3 2).1,
    (packer_greedy_plan fs3 2).2.2 [([("b" : String)], 0, 3)] (by decide)
      ([("b" : String)], 0, 3) (by decide) (by decide)⟩

/-- Witness for C4: a concrete archive with two blocks has contiguous block
rows. -/
theorem block_rows_contiguous_witness :
    create_archive_inner toyLib dbEnc0 fs4 "LZ4" (some 1) = .ok out4
      ∧ (out4.blockRows.get ⟨1, by decide⟩).offset
          = (out4.blockRows.get ⟨0, by decide⟩).offset
            + (out4.blockRows.get ⟨0, by decide⟩).size :=
  ⟨rfl,
    (block_rows_contiguous toyLib dbEnc0 fs4 "LZ4" (some 1) out4 rfl).2 0 (by decide)⟩

/-- Witness for C8: a concrete bulk extraction whose three files span two
blocks decompresses each block once. -/
theorem bulk_extract_blocks_nodup_witness :
    extract_files toyLib r0 arch0 (fun _ => true) = .ok run0
      ∧ (run0.blocks.map Prod.fst).Nodup :=
  ⟨rfl, bulk_extract_blocks_nodup toyLib r0 arch0 (fun _ => true) run0 rfl⟩

/-- Witness for C9: a concrete small-block extraction takes the in-memory
path, and the two slicing modes agree on an in-bounds range. -/
theorem spill_selection_and_path_equiv_witness :
    extract_file toyLib r0 arch0 [("a" : String)] = .ok (false, [10])
      ∧ ((false = true) ↔ r0.max_mem_extract_size < bi0.size)
      ∧ slice_mem [10, 20] 0 1 = .ok (slice_file [10, 20] 0 1) :=
  ⟨rfl,
    spill_selection_and_path_equiv.1 toyLib r0 arch0 [("a" : String)] false [10] fe0 bi0
      rfl rfl rfl,
    spill_selection_and_path_equiv.2 [10, 20] 0 1 (by decide)⟩

/-- Witness for C10: the concrete two-file block is tightly packed and its
writer buffer has length 2. -/
theorem blocks_tightly_packed_witness :
    tightFrom 0 bs10
      ∧ (mkBlockBuffer (fun _ => []) bs10 (sumSizes bs10)).length = (sumSizes bs10).toNat :=
  ⟨(blocks_tightly_packed fs10 100 bs10 (by decide)).1,
    (blocks_tightly_packed fs10 100 bs10 (by decide)).2 (fun _ => [])⟩

end Bloda



